import Mathlib

/-!
# Verification of the AI-Study-Assistant notes pipeline

Shallow embedding of `backend/app/services/pipeline.py` (class `NotesPipeline`)
together with proofs about the properties stated in the specification.

Modelling conventions:
* Python strings are modelled as `List Char` (type `Str`); string literals are
  injected with `str`.
* Python `float` timestamps are modelled as `ℚ`; `int(x)` (truncation toward
  zero) is `pytrunc`.
* Regular-expression operations of the source are modelled by direct
  executable scanners with the same semantics on the pattern in question
  (`re.sub(r"\[.*?\]", " ", _)`, `re.sub(r"\s+", " ", _)`, word-boundary
  substitution, and the fixed code/formula search patterns).  `\s`, `\w`,
  `[a-zA-Z]`, `str.lower`, `str.upper` are modelled at ASCII precision (all
  inputs appearing in the specification are ASCII).
-/

namespace Pipeline

abbrev Str := List Char

def str (s : String) : Str := s.data

/-- Python's `\s` / `str.strip` whitespace, at ASCII precision. -/
def isPySpace (c : Char) : Bool :=
  c = ' ' || c = '\t' || c = '\n' || c = '\r' || c = '\x0c' || c = '\x0b'

/-- ASCII word character, Python's `\w` at ASCII precision. -/
def isWordChar (c : Char) : Bool :=
  c.isAlpha || c.isDigit || c = '_'

def lowerS (l : Str) : Str := l.map Char.toLower

/-! ## `_clean_text`

```python
def _clean_text(self, text: str) -> str:
    text = re.sub(r"\[.*?\]", " ", text)
    text = text.replace("\n", " ")
    text = re.sub(r"\s+", " ", text).strip()
    return text
```

`re.sub(r"\[.*?\]", " ", _)` scans left to right; at a `[` it matches up to
the first following `]`, provided no newline intervenes (`.` does not match
`\n`), and replaces the match by a single space; otherwise the character is
kept and scanning continues.  `closeAhead l` decides whether a `]` occurs in
`l` before any `\n`. -/

def closeAhead : Str → Bool
  | [] => false
  | c :: rest => if c = ']' then true else if c = '\n' then false
      else closeAhead rest

/-- The bracket-stripping pass; the `Bool` records whether the scanner is
currently inside a `[...]` match being deleted. -/
def brGo : Bool → Str → Str
  | _, [] => []
  | true, c :: rest => if c = ']' then brGo false rest else brGo true rest
  | false, c :: rest =>
      if c = '[' && closeAhead rest then ' ' :: brGo true rest
      else c :: brGo false rest

def bracketSub (l : Str) : Str := brGo false l

/-- Python `text.replace("\n", " ")`. -/
def replaceNl (l : Str) : Str := l.map (fun c => if c = '\n' then ' ' else c)

/-- Model of `re.sub(r"\s+", " ", _)`: each maximal run of whitespace becomes one
space.  The `Bool` records whether the previous character was whitespace. -/
def cwGo : Bool → Str → Str
  | _, [] => []
  | inRun, c :: rest =>
      if isPySpace c then
        if inRun then cwGo true rest else ' ' :: cwGo true rest
      else c :: cwGo false rest

def collapseWs (l : Str) : Str := cwGo false l

/-- Python `str.strip()`. -/
def stripWs (l : Str) : Str :=
  ((l.dropWhile isPySpace).reverse.dropWhile isPySpace).reverse

def cleanText (l : Str) : Str :=
  stripWs (collapseWs (replaceNl (bracketSub l)))

/-! ## `_unique_lines`

```python
def _unique_lines(self, lines):
    out, seen = [], set()
    for line in lines:
        cleaned = self._clean_text(line)
        key = cleaned.lower()
        if not cleaned or key in seen:
            continue
        seen.add(key)
        out.append(cleaned)
    return out
```
-/

def uniqueGo : List Str → List Str → List Str
  | _, [] => []
  | seen, line :: rest =>
      let cleaned := cleanText line
      let key := lowerS cleaned
      if cleaned = [] ∨ key ∈ seen then uniqueGo seen rest
      else cleaned :: uniqueGo (key :: seen) rest

def uniqueLines (lines : List Str) : List Str := uniqueGo [] lines

/-- The deduplication key: case-insensitive equality of the normalized
text. -/
def keyOf (line : Str) : Str := lowerS (cleanText line)

/-- First-occurrence survivor relative to a set `seen` of already-used keys:
the cleaned text is non-empty, its key is unused, and no earlier position
carries the same key. -/
def survivesSeen (seen : List Str) (lines : List Str) (i : ℕ) : Bool :=
  decide (cleanText (lines.getD i []) ≠ [] ∧
    keyOf (lines.getD i []) ∉ seen ∧
    ∀ j < i, keyOf (lines.getD j []) ≠ keyOf (lines.getD i []))

/-- The specification-side description of deduplication: the cleaned texts
at the (strictly increasing) first-occurrence positions. -/
def firstOccurrenceList (lines : List Str) : List Str :=
  ((List.range lines.length).filter (survivesSeen [] lines)).map
    (fun i => cleanText (lines.getD i []))

/-! ## Generic string helpers used by several components -/

/-- Case-sensitive literal-prefix test (`str.startswith` / literal regex). -/
def hasPre : Str → Str → Bool
  | [], _ => true
  | _ :: _, [] => false
  | p :: ps, c :: cs => p = c && hasPre ps cs

/-- Does `w` occur as a contiguous substring of `l` (`w in l` in Python)? -/
def occurs (w : Str) : Str → Bool
  | [] => hasPre w []
  | c :: rest => hasPre w (c :: rest) || occurs w rest

/-- Word count `len(s.split())`: the number of maximal runs of non-whitespace. -/
def wordCountGo : Bool → Str → ℕ
  | _, [] => 0
  | inWord, c :: rest =>
      if isPySpace c then wordCountGo false rest
      else if inWord then wordCountGo true rest
      else wordCountGo true rest + 1

def wordCount (l : Str) : ℕ := wordCountGo false l

/-- Python `str.replace(w, r)`: replace every (leftmost, non-overlapping)
occurrence of `w` by `r`.  The `ℕ` is the number of still-to-skip characters
of a match already emitted; `w = []` is treated as no occurrence (all keys in
the source are non-empty). -/
def srGo (w r : Str) : ℕ → Str → Str
  | _, [] => []
  | skip + 1, _ :: rest => srGo w r skip rest
  | 0, c :: rest =>
      if w ≠ [] && hasPre w (c :: rest) then r ++ srGo w r (w.length - 1) rest
      else c :: srGo w r 0 rest

def strReplace (w r l : Str) : Str := srGo w r 0 l

/-- Case-insensitive literal-prefix test against a lower-case pattern. -/
def ciPre : Str → Str → Bool
  | [], _ => true
  | _ :: _, [] => false
  | p :: ps, c :: cs => p = c.toLower && ciPre ps cs

/-- Boundary test: `\b` holds after the position whose remaining input is `l` when the next
character is not a word character (the pattern just matched a word char). -/
def boundaryAfter : Str → Bool
  | [] => true
  | c :: _ => !isWordChar c

/-- Boundary test: `\b` holds before the current position given the previous character. -/
def boundaryBefore : Option Char → Bool
  | none => true
  | some c => !isWordChar c

/-- Model of `re.sub(rf"\b{w}\b", r, _, flags=re.IGNORECASE)` for an alphabetic
lower-case word `w`: whole-word, case-insensitive, all occurrences; the
replacement text is not rescanned.  `prev` is the previously consumed input
character, `skip` counts characters of a match still being consumed. -/
def swGo (w r : Str) : Option Char → ℕ → Str → Str
  | _, _, [] => []
  | _, skip + 1, c :: rest => swGo w r (some c) skip rest
  | prev, 0, c :: rest =>
      if boundaryBefore prev && ciPre w (c :: rest) &&
          boundaryAfter (rest.drop (w.length - 1)) then
        r ++ swGo w r (some c) (w.length - 1) rest
      else c :: swGo w r (some c) 0 rest

def subWord (w r l : Str) : Str := swGo w r none 0 l

/-- Whole-word, case-insensitive search `re.search(rf"\b{w}\b", text)` for an
alphabetic lower-case word `w`. -/
def wordSearchGo (w : Str) : Option Char → Str → Bool
  | prev, [] =>
      boundaryBefore prev && ciPre w [] && boundaryAfter []
  | prev, c :: rest =>
      (boundaryBefore prev && ciPre w (c :: rest) &&
        boundaryAfter ((c :: rest).drop w.length)) ||
      wordSearchGo w (some c) rest

def wordSearch (w text : Str) : Bool := wordSearchGo w none text

/-! ## Modes and data model (`schemas/notes.py`, dataclasses of the pipeline)

`diagram` is `str | None` in the schema but the pipeline always sets it, so it
is modelled as `Str`. -/

inductive Language where
  | english
  | hinglish
deriving DecidableEq

inductive Style where
  | simple
  | exam
deriving DecidableEq

structure TranscriptEntry where
  text : Str
  start : ℚ
  duration : ℚ
deriving DecidableEq

structure OcrEntry where
  text : Str
  second : ℤ
deriving DecidableEq

structure RawPipelineOutput where
  transcript_entries : List TranscriptEntry
  ocr_entries : List OcrEntry
  code_snippets : List Str
deriving DecidableEq

structure CodeLineExplanation where
  line_number : ℕ
  explanation : Str
deriving DecidableEq

structure CodeBlock where
  language : Str
  code : Str
  explanation : Str
  line_by_line : List CodeLineExplanation
deriving DecidableEq

structure TopicNote where
  topic_name : Str
  explanation : List Str
  screen_content : List Str
  formulas_or_diagrams : List Str
  diagram : Str
  code_sections : List CodeBlock
deriving DecidableEq

/-! ## `_simplify_sentence`, `_format_text`, `_to_hinglish`

```python
def _simplify_sentence(self, text):
    text = self._clean_text(text)
    replacements = {"therefore": "so", "hence": "so", "approximately": "about",
                    "utilize": "use", "demonstrates": "shows", "fundamentally": "mainly"}
    out = text.lower()
    for old, new in replacements.items():
        out = out.replace(old, new)
    return out[:1].upper() + out[1:] if out else out
```
Note that the table is applied with plain substring `str.replace`. -/

def simplifyTable : List (Str × Str) :=
  [ (str "therefore", str "so"), (str "hence", str "so"),
    (str "approximately", str "about"), (str "utilize", str "use"),
    (str "demonstrates", str "shows"), (str "fundamentally", str "mainly") ]

/-- Python `out[:1].upper() + out[1:]`. -/
def capFirst : Str → Str
  | [] => []
  | c :: rest => c.toUpper :: rest

def simplifySentence (text : Str) : Str :=
  capFirst (simplifyTable.foldl (fun out p => strReplace p.1 p.2 out)
    (lowerS (cleanText text)))

/-- Register transformation `_to_hinglish`: ordered whole-word case-insensitive substitutions. -/
def hinglishTable : List (Str × Str) :=
  [ (str "this", str "ye"), (str "is", str "hai"), (str "are", str "hain"),
    (str "shows", str "show karta hai"), (str "because", str "kyunki"),
    (str "and", str "aur"), (str "with", str "ke saath"),
    (str "for", str "ke liye"), (str "use", str "use karo") ]

def toHinglish (text : Str) : Str :=
  hinglishTable.foldl (fun out p => subWord p.1 p.2 out) text

/-- Style formatter `_format_text`: exam prefix first, then the register transformation. -/
def formatText (text : Str) (language : Language) (style : Style) : Str :=
  let text := if style = Style.exam then str "Exam focus: " ++ text else text
  if language = Language.hinglish then toHinglish text else text

/-! ## The code-like line classifiers

`_extract_code_candidates` (pool construction) uses

```python
code_like = re.compile(
    r"(^\s*#include|^\s*import |int\s+main|return\s+\d+;|for\s*\(|while\s*\(|if\s*\(|console\.log|def\s+|"
    r"\b(?:int|float|double|char|long|short|bool|string)\b\s+[a-zA-Z_]\w*\s*=.*;|^\s*[{}]\s*$)",
    re.IGNORECASE)
```

while `_looks_code` uses

```python
re.search(
    r"(^\s*#include|;\s*$|int\s+main|for\s*\(|while\s*\(|if\s*\(|return\s+\d+;|def\s+|console\.log|"
    r"\b(?:int|float|double|char|long|short|bool|string)\b\s+[a-zA-Z_]\w*\s*=.*;|^\s*[{}]\s*$)",
    text, flags=re.IGNORECASE)
```

Both are `search`es of a disjunction of branches; a branch with `^` can only
match at position 0 (no `re.MULTILINE`), and for the `$`-branches, `\s*$`
succeeds from a position exactly when every remaining character is
whitespace (`$` matches at the end or just before a final newline, and `\s`
covers `\n`).  Case-insensitivity is modelled by lower-casing the input and
matching against lower-case literals. -/

def dropWs (l : Str) : Str := l.dropWhile isPySpace

def allWs (l : Str) : Bool := l.all isPySpace

/-- Does a `;` occur at or after this position before any newline?  This is
`.*;` continuing a match (`.` does not cross `\n`). -/
def semiAhead : Str → Bool
  | [] => false
  | ';' :: _ => true
  | '\n' :: _ => false
  | _ :: rest => semiAhead rest

/-- Branch `int\s+main` at the current position. -/
def brIntMain (l : Str) : Bool :=
  hasPre (str "int") l &&
    (match l.drop 3 with
     | [] => false
     | c :: rest => isPySpace c && hasPre (str "main") (dropWs rest))

/-- Branch `return\s+\d+;` at the current position. -/
def brReturn (l : Str) : Bool :=
  hasPre (str "return") l &&
    (match l.drop 6 with
     | [] => false
     | c :: rest =>
        isPySpace c &&
          (let digits := (dropWs rest).takeWhile Char.isDigit
           decide (digits ≠ []) &&
             hasPre (str ";") ((dropWs rest).drop digits.length)))

/-- Branch `kw\s*\(` at the current position, for a literal keyword `kw`. -/
def brKwParen (kw : Str) (l : Str) : Bool :=
  hasPre kw l && hasPre (str "(") (dropWs (l.drop kw.length))

/-- Branch `def\s+` at the current position. -/
def brDef (l : Str) : Bool :=
  hasPre (str "def") l &&
    (match l.drop 3 with
     | [] => false
     | c :: _ => isPySpace c)

def typeKeywords : List Str :=
  [str "int", str "float", str "double", str "char", str "long",
   str "short", str "bool", str "string"]

/-- Branch `\b(?:int|float|...|string)\b\s+[a-zA-Z_]\w*\s*=.*;` at the current
position (`prev` is the preceding character, for the leading `\b`; the
trailing `\b` after the keyword is implied by the mandatory `\s+`). -/
def brTyped (prev : Option Char) (l : Str) : Bool :=
  boundaryBefore prev &&
    typeKeywords.any fun kw =>
      hasPre kw l &&
        (match l.drop kw.length with
         | [] => false
         | c :: rest =>
            isPySpace c &&
              (match dropWs rest with
               | [] => false
               | d :: ds =>
                  (d.isAlpha || d = '_') &&
                    (let after := ds.dropWhile isWordChar
                     hasPre (str "=") (dropWs after) &&
                       semiAhead ((dropWs after).drop 1))))

/-- Branch `;\s*$` at the current position. -/
def brSemiEnd : Str → Bool
  | ';' :: rest => allWs rest
  | _ => false

/-- Anchored branch `^\s*#include` (matching at position 0 only). -/
def brHashInclude (l : Str) : Bool := hasPre (str "#include") (dropWs l)

/-- Anchored branch `^\s*import ` (matching at position 0 only). -/
def brImportSp (l : Str) : Bool := hasPre (str "import ") (dropWs l)

/-- Anchored branch `^\s*[{}]\s*$` (matching at position 0 only). -/
def brBraceLine (l : Str) : Bool :=
  match dropWs l with
  | [] => false
  | c :: rest => (c = '{' || c = '}') && allWs rest

/-- One scan step of `re.search`: try the position-wise predicate at every
position (tracking the previous character for `\b`). -/
def scanGo (f : Option Char → Str → Bool) : Option Char → Str → Bool
  | prev, [] => f prev []
  | prev, c :: rest => f prev (c :: rest) || scanGo f (some c) rest

def scanSearch (f : Option Char → Str → Bool) (l : Str) : Bool :=
  scanGo f none l

/-- The unanchored branches shared by the two classifier patterns. -/
def commonAt (prev : Option Char) (l : Str) : Bool :=
  brIntMain l || brReturn l || brKwParen (str "for") l ||
    brKwParen (str "while") l || brKwParen (str "if") l ||
    hasPre (str "console.log") l || brDef l || brTyped prev l

/-- The pool-construction pattern of `_extract_code_candidates`. -/
def codeLikePool (s : Str) : Bool :=
  let t := lowerS s
  brHashInclude t || brImportSp t || brBraceLine t || scanSearch commonAt t

/-- Classifier `_looks_code`. -/
def looksCode (s : Str) : Bool :=
  let t := lowerS s
  brHashInclude t || brBraceLine t ||
    scanSearch (fun prev l => commonAt prev l || brSemiEnd l) t

/-! ## `_extract_code_candidates` (pool, dedup, cap, grouping) -/

/-- The grouping loop: `current` collects lines (reversed) and is flushed at
8; a non-empty remainder is flushed at the end. -/
def groupGo (cur : List Str) : List Str → List (List Str)
  | [] => if cur = [] then [] else [cur.reverse]
  | x :: rest =>
      let cur' := x :: cur
      if 8 ≤ cur'.length then cur'.reverse :: groupGo [] rest
      else groupGo cur' rest

def joinNl (lines : List Str) : Str := (lines.intersperse (str "\n")).flatten

def extractCodeCandidates (transcript : List TranscriptEntry)
    (ocr : List OcrEntry) : List Str :=
  let pool := (transcript.map (·.text)).filter codeLikePool ++
    (ocr.map (·.text)).filter codeLikePool
  let cleaned := (uniqueLines pool).take 20
  if cleaned = [] then []
  else ((groupGo [] cleaned).map joinNl).take 2

/-! ## `_topic_windows`

```python
def _topic_windows(self, entries, max_topics, window_seconds):
    if not entries:
        return []
    grouped = []
    cursor = int(entries[0].start)
    last = int(entries[-1].start + entries[-1].duration)
    while cursor <= last and len(grouped) < max_topics:
        start = cursor
        end = start + window_seconds
        chunk = [x for x in entries if start <= int(x.start) < end]
        if chunk:
            grouped.append((start, end, chunk))
        cursor = end
    if not grouped:
        grouped.append((0, window_seconds, entries[:40]))
    return grouped
```
-/

/-- Python `int()` on a (rational-valued) float: truncation toward zero. -/
def pytrunc (q : ℚ) : ℤ := if 0 ≤ q then ⌊q⌋ else ⌈q⌉

abbrev Window := ℤ × ℤ × List TranscriptEntry

/-- The `while` loop of `_topic_windows`.  The loop advances `cursor` by
`windowSeconds` each iteration, so for `windowSeconds ≥ 1` it performs at
most `last + 1 - cursor` iterations; `fuel` is initialised to exactly that
bound, making the recursion structural.  (For `windowSeconds = 0` the source
loop would not terminate on an empty chunk; every call site uses 90.) -/
def windowsGo (entries : List TranscriptEntry) (maxTopics windowSeconds : ℕ)
    (last : ℤ) : ℕ → ℤ → List Window → List Window
  | 0, _, grouped => grouped
  | fuel + 1, cursor, grouped =>
      if cursor ≤ last ∧ grouped.length < maxTopics then
        let start := cursor
        let stop := start + (windowSeconds : ℤ)
        let chunk := entries.filter fun x =>
          decide (start ≤ pytrunc x.start ∧ pytrunc x.start < stop)
        let grouped' := if chunk = [] then grouped
          else grouped ++ [(start, stop, chunk)]
        windowsGo entries maxTopics windowSeconds last fuel stop grouped'
      else grouped

def topicWindows (entries : List TranscriptEntry)
    (maxTopics windowSeconds : ℕ) : List Window :=
  match entries with
  | [] => []
  | e0 :: rest =>
      let lastE := (e0 :: rest).getLast (List.cons_ne_nil e0 rest)
      let cursor := pytrunc e0.start
      let last := pytrunc (lastE.start + lastE.duration)
      let grouped := windowsGo (e0 :: rest) maxTopics windowSeconds last
        (last + 1 - cursor).toNat cursor []
      if grouped = [] then [(0, (windowSeconds : ℤ), (e0 :: rest).take 40)]
      else grouped

/-! ## `_topic_title` -/

def stopWords : List Str :=
  [str "the", str "a", str "an", str "and", str "or", str "to", str "of",
   str "in", str "for", str "is", str "are", str "this", str "that",
   str "we", str "you", str "it", str "with", str "on", str "as", str "be",
   str "by", str "from", str "at"]

/-- Model of `re.findall(r"[a-zA-Z]{4,}", line)`: the maximal alphabetic runs, kept
when of length at least 4.  `cur` accumulates the current run reversed. -/
def alphaRunsGo (cur : Str) : Str → List Str
  | [] => if cur = [] then [] else [cur.reverse]
  | c :: rest =>
      if c.isAlpha then alphaRunsGo (c :: cur) rest
      else if cur = [] then alphaRunsGo [] rest
      else cur.reverse :: alphaRunsGo [] rest

def alphaTokens (l : Str) : List Str :=
  (alphaRunsGo [] l).filter fun w => 4 ≤ w.length

/-- Frequency update `freq[w] = freq.get(w, 0) + 1` on an insertion-ordered table. -/
def bump : List (Str × ℕ) → Str → List (Str × ℕ)
  | [], w => [(w, 1)]
  | (k, v) :: rest, w =>
      if k = w then (k, v + 1) :: rest else (k, v) :: bump rest w

/-- Stable insertion (descending by count): `x` goes before the first entry
whose count does not exceed its own, matching Python's stable
`sorted(..., key=count, reverse=True)`. -/
def insDesc (x : Str × ℕ) : List (Str × ℕ) → List (Str × ℕ)
  | [] => [x]
  | y :: ys => if x.2 < y.2 then y :: insDesc x ys else x :: y :: ys

def sortDesc : List (Str × ℕ) → List (Str × ℕ)
  | [] => []
  | x :: xs => insDesc x (sortDesc xs)

/-- Python `str.capitalize()`: first character upper, rest lower. -/
def pyCapitalize : Str → Str
  | [] => []
  | c :: rest => c.toUpper :: rest.map Char.toLower

/-- Decimal digits of a natural number (for `f"... {index} ..."`). -/
def natChars (n : ℕ) : Str := Nat.toDigits 10 n

def joinSep (sep : Str) (parts : List Str) : Str :=
  (parts.intersperse sep).flatten

def topicTitle (lines : List Str) (index : ℕ) (language : Language) : Str :=
  let words := lines.flatMap fun line => alphaTokens (lowerS line)
  let freq := (words.filter fun w => w ∉ stopWords).foldl bump []
  let top := (sortDesc freq).take 2
  let labels := if top = [] then [str "Section " ++ natChars index]
    else top.map fun p => pyCapitalize p.1
  let base := joinSep (str " & ") labels
  if language = Language.hinglish then
    str "Topic " ++ natChars index ++ str ": " ++ base ++ str " Concept"
  else str "Topic " ++ natChars index ++ str ": " ++ base

/-! ## `_to_points` and the rewrite step -/

/-- The bullet loop: simplify, discard sub-5-word candidates, format, skip
exact duplicates, and stop as soon as `maxPoints` bullets are collected
(the source appends and then breaks on `len(points) >= max_points`). -/
def toPointsGo (maxPoints : ℕ) (language : Language) (style : Style)
    (points : List Str) : List Str → List Str
  | [] => points
  | line :: rest =>
      let candidate := simplifySentence line
      if wordCount candidate < 5 then
        toPointsGo maxPoints language style points rest
      else
        let formatted := formatText candidate language style
        let points' := if formatted ∈ points then points
          else points ++ [formatted]
        if maxPoints ≤ points'.length then points'
        else toPointsGo maxPoints language style points' rest

def toPoints (lines : List Str) (maxPoints : ℕ) (language : Language)
    (style : Style) : List Str :=
  toPointsGo maxPoints language style [] lines

/-- The `_llm_rewrite_points` step calls an optional external rewriting service; with
no API key configured (and on any failure) it returns the bullets unchanged.
The external collaborator is out of scope, so the model is that unchanged
path. -/
def llmRewritePoints (points : List Str) (_language : Language)
    (_style : Style) : List Str := points

/-! ## `_build_topic_diagram` / `_extract_process_steps` -/

def processVerbs : List Str :=
  [str "select", str "define", str "calculate", str "solve", str "check",
   str "apply", str "write", str "run", str "print"]

def extractProcessSteps (lines : List Str) : List Str :=
  let text := lowerS (joinSep (str " ") lines)
  processVerbs.foldl
    (fun found v => if wordSearch v text ∧ v ∉ found then found ++ [v]
      else found) []

def buildTopicDiagram (lines : List Str) (language : Language) : Str :=
  let steps := extractProcessSteps lines
  if steps = [] then
    if language = Language.hinglish then str "Flow: Input -> Process -> Output"
    else str "Flow: Input -> Process -> Output"
  else
    str "Flow: " ++ joinSep (str " -> ") ((steps.take 5).map pyCapitalize)

/-! ## `_extract_formula_like_lines` -/

def formulaKeywords : List Str :=
  [str "=", str "plus", str "minus", str "integral", str "derivative",
   str "matrix", str "voltage", str "current", str "force", str "energy",
   str "sum", str "sigma", str "kcl", str "kvl"]

def extractFormulaLines (lines : List Str) : List Str :=
  (lines.foldl
    (fun formulas line =>
      if formulaKeywords.any (fun k => occurs k (lowerS line)) then
        let cleaned := cleanText line
        if cleaned ≠ [] ∧ cleaned ∉ formulas then formulas ++ [cleaned]
        else formulas
      else formulas) []).take 6

/-! ## `_clean_code`, `_guess_language`, `_line_explanations`,
`_build_code_blocks` -/

/-- Python `str.splitlines()` restricted to `\n` separators (no other line
terminators occur in the pipeline's data). -/
def splitLinesGo (cur : Str) : Str → List Str
  | [] => [cur.reverse]
  | '\n' :: rest => cur.reverse :: splitLinesGo [] rest
  | c :: rest => splitLinesGo (c :: cur) rest

def splitLines : Str → List Str
  | [] => []
  | c :: rest => splitLinesGo [] (c :: rest)

def cleanCode (code : Str) : Str :=
  joinNl (((splitLines code).map cleanText).filter (· ≠ []))

def guessLanguage (code : Str) : Str :=
  let lower := lowerS code
  if occurs (str "#include") lower || occurs (str "int main") lower then
    str "c"
  else if occurs (str "import ") lower || occurs (str "def ") lower then
    str "python"
  else if occurs (str "console.log") lower ||
      occurs (str "function ") lower then str "javascript"
  else if occurs (str "public static void main") lower then str "java"
  else str "text"

/-- Model of `re.search(r"\bint\s+main\s*\(", x)` (case-sensitive). -/
def intMainParen (x : Str) : Bool :=
  scanSearch
    (fun prev l =>
      boundaryBefore prev && hasPre (str "int") l &&
        (match l.drop 3 with
         | [] => false
         | c :: rest =>
            isPySpace c &&
              (hasPre (str "main") (dropWs rest) &&
                hasPre (str "(") (dropWs ((dropWs rest).drop 4))))) x

/-- The first-match-wins per-line annotation rules (case-sensitive). -/
def lineRuleText (x : Str) : Str :=
  if hasPre (str "#include") x then
    str "Includes header file for input/output functions."
  else if intMainParen x then str "Program execution starts here."
  else if x = str "\x7b" then str "Start of the main code block."
  else if x = str "\x7d" then str "End of the main code block."
  else if hasPre (str "//") x then str "Comment line explaining the logic."
  else if occurs (str "for") x && occurs (str "(") x then
    str "Loop runs a block multiple times."
  else if occurs (str "return") x then
    str "Returns status and ends the function."
  else if occurs (str "=") x then str "Assigns or computes a value."
  else str "Core statement in this code."

def lineExplanations (code : Str) (language : Language) (style : Style) :
    List CodeLineExplanation :=
  (List.enumFrom 1 (splitLines code)).filterMap fun p =>
    let x := stripWs p.2
    if x = [] then none
    else some ⟨p.1, formatText (lineRuleText x) language style⟩

def codeBlockSentence : Str :=
  str "This code is extracted from the lecture screen/transcript and cleaned for readability."

def buildCodeBlocks (snippets : List Str) (language : Language)
    (style : Style) : List CodeBlock :=
  (snippets.filterMap fun snippet =>
    let cleaned := cleanCode snippet
    if (splitLines cleaned).length < 1 then none
    else some
      { language := guessLanguage cleaned
        code := cleaned
        explanation := formatText codeBlockSentence language style
        line_by_line := lineExplanations cleaned language style }).take 3

/-! ## `_structure_notes` -/

def fallbackSentence : Str :=
  str "No clear board/screen text was detected in this segment."

/-- The base time-stamped sequence for windowing: the transcript if
non-empty, else the OCR entries as synthetic transcript entries. -/
def baseEntries (raw : RawPipelineOutput) : List TranscriptEntry :=
  if raw.transcript_entries = [] ∧ raw.ocr_entries ≠ [] then
    raw.ocr_entries.map fun item =>
      ⟨item.text, (item.second : ℚ), (6 : ℚ)⟩
  else raw.transcript_entries

/-- Window OCR lines `ocr_lines = [x.text for x in raw.ocr_entries if start <= x.second <= end]`
(note the inclusive upper bound). -/
def windowOcrLines (raw : RawPipelineOutput) (w : Window) : List Str :=
  (raw.ocr_entries.filter fun x =>
    decide (w.1 ≤ x.second ∧ x.second ≤ w.2.1)).map (·.text)

/-- The body of the per-window loop of `_structure_notes` (`index` is the
1-based position of the window). -/
def buildNote (raw : RawPipelineOutput) (language : Language) (style : Style)
    (index : ℕ) (w : Window) : TopicNote :=
  let chunkLines := w.2.2.map (·.text)
  let ocrLines := windowOcrLines raw w
  let explanation :=
    llmRewritePoints (toPoints chunkLines 6 language style) language style
  let screen0 := (uniqueLines ocrLines).take 6
  let screenContent := if screen0 = [] then
      [formatText fallbackSentence language style]
    else screen0
  let formulas := extractFormulaLines (chunkLines ++ ocrLines)
  let diagram := buildTopicDiagram chunkLines language
  let topicCode0 := if index = 1 ∧ raw.code_snippets ≠ [] then
      raw.code_snippets
    else []
  let topicCode := if ocrLines.any looksCode then
      topicCode0 ++ [joinNl (ocrLines.filter looksCode)]
    else topicCode0
  { topic_name := topicTitle chunkLines index language
    explanation := explanation
    screen_content := screenContent.map (formatText · language style)
    formulas_or_diagrams := formulas.map (formatText · language style)
    diagram := diagram
    code_sections := buildCodeBlocks topicCode language style }

def structureNotes (raw : RawPipelineOutput) (language : Language)
    (style : Style) : List TopicNote :=
  let windows := topicWindows (baseEntries raw) 5 90
  (List.enumFrom 1 windows).map fun p => buildNote raw language style p.1 p.2

/-! ## `_collect_raw_data`

Acquisition (URL parsing, the transcript HTTP fetch and the yt-dlp / ffmpeg /
tesseract OCR path) is external; `_collect_raw_data` is modelled from the
point where the deduplicated transcript entries (or the captured transcript
fetch error) and the deduplicated OCR entries are in hand:

```python
if not transcript_entries and not ocr_entries:
    detail = transcript_error or "No useful transcript text found for this video."
    raise ValueError(
        f"{detail} Also no OCR text could be extracted. "
        "Try another video, or install ffmpeg + tesseract for better fallback extraction.")
```
-/

def noSignalGuidance : Str :=
  str "Also no OCR text could be extracted. Try another video, or install ffmpeg + tesseract for better fallback extraction."

def defaultTranscriptDetail : Str :=
  str "No useful transcript text found for this video."

/-- The transcript entries that `_collect_raw_data` proceeds with: the
fetched list on success, the empty list when the fetch raised. -/
def fetchedEntries (fetched : Except Str (List TranscriptEntry)) :
    List TranscriptEntry :=
  match fetched with
  | Except.ok entries => entries
  | Except.error _ => []

def collectRawData (fetched : Except Str (List TranscriptEntry))
    (ocrEntries : List OcrEntry) : Except Str RawPipelineOutput :=
  let transcriptEntries := fetchedEntries fetched
  if transcriptEntries = [] ∧ ocrEntries = [] then
    let detail := match fetched with
      | Except.error msg => msg
      | Except.ok _ => defaultTranscriptDetail
    Except.error (detail ++ str " " ++ noSignalGuidance)
  else
    Except.ok
      { transcript_entries := transcriptEntries
        ocr_entries := ocrEntries
        code_snippets := extractCodeCandidates transcriptEntries ocrEntries }

/-! ## Concrete inputs used in scenario proofs and witnesses -/

/-- First transcript entry of end-to-end scenario A. -/
def entryA1 : TranscriptEntry :=
  ⟨str "we define voltage as v equals i times r", 0, 5⟩

/-- Second transcript entry of end-to-end scenario A. -/
def entryA2 : TranscriptEntry :=
  ⟨str "then we calculate current using ohms law", 10, 5⟩

/-- Scenario A raw data: the two transcript entries, no OCR, and the code
pool the pipeline itself would compute for them. -/
def rawA : RawPipelineOutput :=
  ⟨[entryA1, entryA2], [], extractCodeCandidates [entryA1, entryA2] []⟩

/-- Transcript entry of a small witness input. -/
def entryW : TranscriptEntry :=
  ⟨str "alpha beta gamma delta epsilon", 0, 5⟩

/-- A small raw input with one transcript entry and no OCR, used as a
witness input. -/
def rawW : RawPipelineOutput := ⟨[entryW], [], []⟩

/-! ## Auxiliary predicates used in proofs -/

/-- No `[` occurs anywhere before a `]`: exactly the strings on which the
bracket-stripping regex `\[.*?\]` finds no match on a newline-free input. -/
def NoPair (l : Str) : Prop := List.Pairwise (fun a b => a = '[' → b ≠ ']') l

/-- No two adjacent whitespace characters. -/
def NoAdjWs (l : Str) : Prop :=
  List.Chain' (fun a b => ¬(isPySpace a = true ∧ isPySpace b = true)) l

end Pipeline

namespace Pipeline

/-! # Helper lemmas -/

theorem windowsA :
    topicWindows (baseEntries rawA) 5 90 = [(0, 90, [entryA1, entryA2])] := by
  have hb : baseEntries rawA = [entryA1, entryA2] := by decide
  have h1 : pytrunc entryA1.start = 0 := by norm_num [pytrunc, entryA1]
  have h2 : pytrunc entryA2.start = 10 := by norm_num [pytrunc, entryA2]
  have h3 : pytrunc (entryA2.start + entryA2.duration) = 15 := by
    norm_num [pytrunc, entryA2]
  rw [hb]
  simp [topicWindows, h1, h2, h3]
  norm_num [windowsGo, h1, h2]

theorem notesA : structureNotes rawA Language.english Style.simple =
    [buildNote rawA Language.english Style.simple 1
      (0, 90, [entryA1, entryA2])] := by
  unfold structureNotes
  rw [windowsA]
  rfl

theorem windowsW :
    topicWindows (baseEntries rawW) 5 90 = [(0, 90, [entryW])] := by
  have hb : baseEntries rawW = [entryW] := by decide
  have h1 : pytrunc entryW.start = 0 := by norm_num [pytrunc, entryW]
  have h3 : pytrunc (entryW.start + entryW.duration) = 5 := by
    norm_num [pytrunc, entryW]
  rw [hb]
  simp [topicWindows, h1, h3]
  norm_num [windowsGo, h1]

theorem notesW (language : Language) (style : Style) :
    structureNotes rawW language style =
      [buildNote rawW language style 1 (0, 90, [entryW])] := by
  unfold structureNotes
  rw [windowsW]
  rfl

theorem hasPre_self (w : Str) : hasPre w w = true := by
  induction w with
  | nil => rfl
  | cons c cs ih => simp [hasPre, ih]

theorem occurs_append_self (l w : Str) : occurs w (l ++ w) = true := by
  induction l with
  | nil =>
      cases w with
      | nil => rfl
      | cons c cs => simp [occurs, hasPre_self]
  | cons c cs ih => simp [occurs, ih]

/-! ## Lemmas about `_clean_text` -/

theorem closeAhead_mem : ∀ {l : Str}, closeAhead l = true → ']' ∈ l := by
  intro l
  induction l with
  | nil => intro h; cases h
  | cons c rest ih =>
      intro h
      rw [closeAhead] at h
      by_cases hc : c = ']'
      · exact hc ▸ List.mem_cons_self _ _
      · rw [if_neg hc] at h
        by_cases hn : c = '\n'
        · rw [if_pos hn] at h; cases h
        · rw [if_neg hn] at h
          exact List.mem_cons_of_mem _ (ih h)

theorem not_mem_of_closeAhead_false :
    ∀ {l : Str}, '\n' ∉ l → closeAhead l = false → ']' ∉ l := by
  intro l
  induction l with
  | nil => intro _ _ h; cases h
  | cons c rest ih =>
      intro hnl h hm
      have hcne : c ≠ '\n' := fun hc => hnl (hc ▸ List.mem_cons_self _ _)
      have hnr : '\n' ∉ rest := fun hr => hnl (List.mem_cons_of_mem _ hr)
      rw [closeAhead] at h
      rcases List.mem_cons.mp hm with hm | hm
      · rw [if_pos hm.symm] at h; cases h
      · by_cases hc : c = ']'
        · rw [if_pos hc] at h; cases h
        · rw [if_neg hc, if_neg hcne] at h
          exact ih hnr h hm

theorem mem_brGo {c : Char} :
    ∀ (l : Str) (b : Bool), c ∈ brGo b l → c = ' ' ∨ c ∈ l := by
  intro l
  induction l with
  | nil => intro b h; simp [brGo] at h
  | cons d rest ih =>
      intro b h
      cases b with
      | true =>
          rw [brGo] at h
          split at h
          · rcases ih _ h with h | h
            · exact Or.inl h
            · exact Or.inr (List.mem_cons_of_mem _ h)
          · rcases ih _ h with h | h
            · exact Or.inl h
            · exact Or.inr (List.mem_cons_of_mem _ h)
      | false =>
          rw [brGo] at h
          split at h
          · rcases List.mem_cons.mp h with h | h
            · exact Or.inl h
            · rcases ih _ h with h | h
              · exact Or.inl h
              · exact Or.inr (List.mem_cons_of_mem _ h)
          · rcases List.mem_cons.mp h with h | h
            · exact Or.inr (h ▸ List.mem_cons_self _ _)
            · rcases ih _ h with h | h
              · exact Or.inl h
              · exact Or.inr (List.mem_cons_of_mem _ h)

theorem noPair_brGo :
    ∀ (l : Str), '\n' ∉ l → ∀ b, NoPair (brGo b l) := by
  intro l
  induction l with
  | nil => intro _ b; cases b <;> exact List.Pairwise.nil
  | cons d rest ih =>
      intro hnl b
      have hnr : '\n' ∉ rest := fun hr => hnl (List.mem_cons_of_mem _ hr)
      cases b with
      | true =>
          rw [brGo]
          split
          · exact ih hnr false
          · exact ih hnr true
      | false =>
          rw [brGo]
          split
          · next hcond =>
              refine List.pairwise_cons.mpr ⟨?_, ih hnr true⟩
              intro y _ hsp
              exact absurd hsp (by decide)
          · next hcond =>
              refine List.pairwise_cons.mpr ⟨?_, ih hnr false⟩
              intro y hy hd
              have hca : closeAhead rest = false := by
                subst hd
                simpa using hcond
              have hnotr := not_mem_of_closeAhead_false hnr hca
              rcases mem_brGo _ _ hy with h | h
              · subst h; decide
              · exact fun hy' => hnotr (hy' ▸ h)

theorem brGo_eq_self : ∀ {l : Str}, NoPair l → brGo false l = l := by
  intro l
  induction l with
  | nil => intro _; rfl
  | cons d rest ih =>
      intro h
      obtain ⟨hhead, htail⟩ := List.pairwise_cons.mp h
      rw [brGo]
      split
      · next hcond =>
          have hd : d = '[' := by
            rcases Bool.and_eq_true_iff.mp hcond with ⟨h1, -⟩
            simpa using h1
          have hca : closeAhead rest = true := by
            rcases Bool.and_eq_true_iff.mp hcond with ⟨-, h2⟩
            exact h2
          exact absurd rfl (hhead _ (closeAhead_mem hca) hd)
      · rw [ih htail]

/-! ## Lemmas about whitespace collapsing and stripping -/

theorem ws_mem_cwGo {c : Char} :
    ∀ (l : Str) (b : Bool), c ∈ cwGo b l → isPySpace c = true → c = ' ' := by
  intro l
  induction l with
  | nil => intro b h; simp [cwGo] at h
  | cons d rest ih =>
      intro b h hws
      rw [cwGo] at h
      split at h
      · split at h
        · exact ih _ h hws
        · rcases List.mem_cons.mp h with h | h
          · exact h
          · exact ih _ h hws
      · rcases List.mem_cons.mp h with h | h
        · next hd => subst h; simp_all
        · exact ih _ h hws

theorem head_cwGo_true :
    ∀ (l : Str) {c : Char}, (cwGo true l).head? = some c →
      isPySpace c = false := by
  intro l
  induction l with
  | nil => intro c h; simp [cwGo] at h
  | cons d rest ih =>
      intro c h
      rw [cwGo] at h
      split at h
      · next hd => simp only [if_pos rfl] at h; exact ih h
      · next hd =>
          simp only [List.head?_cons, Option.some.injEq] at h
          subst h
          simpa using hd

theorem noAdjWs_cwGo : ∀ (l : Str) (b : Bool), NoAdjWs (cwGo b l) := by
  intro l
  induction l with
  | nil => intro b; simp [cwGo, NoAdjWs]
  | cons d rest ih =>
      intro b
      rw [cwGo]
      split
      · split
        · exact ih true
        · refine List.chain'_cons'.mpr ⟨?_, ih true⟩
          intro y hy h
          have := head_cwGo_true rest hy
          simp_all
      · next hd =>
          refine List.chain'_cons'.mpr ⟨?_, ih false⟩
          intro y _ h
          simp_all

theorem cwGo_sublist :
    ∀ (l : Str) (b : Bool),
      List.Sublist (cwGo b l)
        (l.map (fun c => if isPySpace c then ' ' else c)) := by
  intro l
  induction l with
  | nil => intro b; simp [cwGo]
  | cons d rest ih =>
      intro b
      rw [cwGo]
      simp only [List.map_cons]
      split
      · next hd =>
          split
          · exact List.Sublist.cons _ (ih true)
          · exact List.Sublist.cons₂ _ (ih true)
      · next hd =>
          exact List.Sublist.cons₂ _ (ih false)

theorem noPair_map_of_noPair {f : Char → Char}
    (hf : ∀ c, f c = c ∨ f c = ' ') {l : Str} (h : NoPair l) :
    NoPair (l.map f) := by
  rw [NoPair, List.pairwise_map]
  refine h.imp ?_
  intro a b hab hfa
  have ha : a = '[' := by
    rcases hf a with h' | h'
    · rw [← h', hfa]
    · rw [hfa] at h'; cases h'
  intro hfb
  have hb : b = ']' := by
    rcases hf b with h' | h'
    · rw [← h', hfb]
    · rw [hfb] at h'; cases h'
  exact hab ha hb

theorem stripWs_contiguous (l : Str) : List.IsInfix (stripWs l) l := by
  unfold stripWs
  have h1 : List.IsSuffix (l.dropWhile isPySpace) l :=
    List.dropWhile_suffix _
  have h2 : List.IsPrefix
      (((l.dropWhile isPySpace).reverse.dropWhile isPySpace).reverse)
      (l.dropWhile isPySpace) := by
    rw [← List.reverse_suffix, List.reverse_reverse]
    exact List.dropWhile_suffix _
  exact h2.isInfix.trans h1.isInfix

theorem stripWs_sublist (l : Str) : List.Sublist (stripWs l) l :=
  (stripWs_contiguous l).sublist

theorem cwGo_eq_self :
    ∀ (l : Str), (∀ c ∈ l, isPySpace c = true → c = ' ') → NoAdjWs l →
      (cwGo false l = l ∧
        ((∀ c, l.head? = some c → isPySpace c = false) →
          cwGo true l = l)) := by
  intro l
  induction l with
  | nil => intro _ _; exact ⟨rfl, fun _ => rfl⟩
  | cons d rest ih =>
      intro hws hadj
      have hws' : ∀ c ∈ rest, isPySpace c = true → c = ' ' :=
        fun c hc => hws c (List.mem_cons_of_mem _ hc)
      have hadj' : NoAdjWs rest := (List.chain'_cons'.mp hadj).2
      have ihr := ih hws' hadj'
      constructor
      · rw [cwGo]
        by_cases hd : isPySpace d = true
        · rw [if_pos hd, if_neg (by simp)]
          have hd' : d = ' ' := hws d (List.mem_cons_self _ _) hd
          have hhead : ∀ c, rest.head? = some c → isPySpace c = false := by
            intro c hc
            have := (List.chain'_cons'.mp hadj).1 c hc
            by_contra hcon
            exact this ⟨hd, by simpa using hcon⟩
          rw [ihr.2 hhead, hd']
        · rw [if_neg hd, ihr.1]
      · intro hhead
        have hd : isPySpace d = false := hhead d rfl
        rw [cwGo, if_neg (by simp [hd]), ihr.1]

theorem dropWhile_eq_self_of_head {p : Char → Bool} :
    ∀ {l : Str}, (∀ c, l.head? = some c → p c = false) →
      l.dropWhile p = l := by
  intro l h
  cases l with
  | nil => rfl
  | cons c rest =>
      rw [List.dropWhile_cons_of_neg]
      simp [h c rfl]

theorem stripWs_eq_self {l : Str}
    (h1 : ∀ c, l.head? = some c → isPySpace c = false)
    (h2 : ∀ c, l.getLast? = some c → isPySpace c = false) :
    stripWs l = l := by
  unfold stripWs
  rw [dropWhile_eq_self_of_head h1]
  rw [dropWhile_eq_self_of_head (by simpa using h2)]
  exact List.reverse_reverse l

theorem head_stripWs {l : Str} {c : Char}
    (h : (stripWs l).head? = some c) : isPySpace c = false := by
  have hpre : List.IsPrefix (stripWs l) (l.dropWhile isPySpace) := by
    unfold stripWs
    rw [← List.reverse_suffix, List.reverse_reverse]
    exact List.dropWhile_suffix isPySpace
  obtain ⟨t, ht⟩ := hpre
  have hm : (l.dropWhile isPySpace).head? = some c := by
    rw [← ht, List.head?_append, h]
    rfl
  have := List.head?_dropWhile_not isPySpace l
  rw [hm] at this
  exact this

theorem getLast_stripWs {l : Str} {c : Char}
    (h : (stripWs l).getLast? = some c) : isPySpace c = false := by
  unfold stripWs at h
  rw [List.getLast?_reverse] at h
  have := List.head?_dropWhile_not isPySpace (l.dropWhile isPySpace).reverse
  rw [h] at this
  exact this

theorem replaceNl_eq_self {l : Str} (h : '\n' ∉ l) : replaceNl l = l := by
  unfold replaceNl
  induction l with
  | nil => rfl
  | cons c rest ih =>
      have hc : c ≠ '\n' := fun hc => h (hc ▸ List.mem_cons_self _ _)
      rw [List.map_cons, if_neg hc,
        ih (fun hr => h (List.mem_cons_of_mem _ hr))]

/-! ## Structural facts about `cleanText` output -/

theorem cleanText_ws {l : Str} {c : Char} (hc : c ∈ cleanText l)
    (hws : isPySpace c = true) : c = ' ' := by
  unfold cleanText at hc
  have hc' := (stripWs_sublist _).subset hc
  exact ws_mem_cwGo _ _ hc' hws

theorem noNl_cleanText (l : Str) : '\n' ∉ cleanText l := by
  intro h
  have := cleanText_ws h (by decide)
  cases this

theorem noAdjWs_cleanText (l : Str) : NoAdjWs (cleanText l) :=
  List.Chain'.infix (noAdjWs_cwGo _ false) (stripWs_contiguous _)

theorem noPair_cleanText {l : Str} (hnl : '\n' ∉ l) :
    NoPair (cleanText l) := by
  unfold cleanText
  have h1 : NoPair (brGo false l) := noPair_brGo l hnl false
  have h2 : NoPair (replaceNl (brGo false l)) :=
    noPair_map_of_noPair (fun c => by
      by_cases hc : c = '\n' <;> simp [hc]) h1
  have h3 : NoPair ((replaceNl (brGo false l)).map
      (fun c => if isPySpace c then ' ' else c)) :=
    noPair_map_of_noPair (fun c => by
      by_cases hc : isPySpace c = true <;> simp [hc]) h2
  have h4 : NoPair (cwGo false (replaceNl (brGo false l))) :=
    List.Pairwise.sublist (cwGo_sublist _ _) h3
  exact List.Pairwise.sublist (stripWs_sublist _) h4

theorem cleanText_eq_self {l : Str} (hnp : NoPair l)
    (hws : ∀ c ∈ l, isPySpace c = true → c = ' ')
    (hadj : NoAdjWs l)
    (hh : ∀ c, l.head? = some c → isPySpace c = false)
    (hl : ∀ c, l.getLast? = some c → isPySpace c = false) :
    cleanText l = l := by
  have hnl : '\n' ∉ l := by
    intro h
    have := hws _ h (by decide)
    cases this
  unfold cleanText bracketSub collapseWs
  rw [brGo_eq_self hnp, replaceNl_eq_self hnl,
    (cwGo_eq_self l hws hadj).1, stripWs_eq_self hh hl]

theorem cleanText_cleanText {s : Str} (h : '\n' ∉ s) :
    cleanText (cleanText s) = cleanText s :=
  cleanText_eq_self (noPair_cleanText h)
    (fun _ hc => cleanText_ws hc)
    (noAdjWs_cleanText s)
    (fun _ hc => head_stripWs hc)
    (fun _ hc => getLast_stripWs hc)

/-! ## Lemmas about `_unique_lines` -/

theorem lowerS_ne_nil {s : Str} (h : s ≠ []) : lowerS s ≠ [] := by
  cases s with
  | nil => exact absurd rfl h
  | cons c rest => simp [lowerS]

theorem forall_lt_succ_shift {P : ℕ → Prop} {n : ℕ} :
    (∀ j < n + 1, P j) ↔ P 0 ∧ ∀ j < n, P (j + 1) := by
  constructor
  · intro h
    exact ⟨h 0 (Nat.succ_pos n),
      fun j hj => h (j + 1) (Nat.succ_lt_succ hj)⟩
  · rintro ⟨h0, h⟩ j hj
    cases j with
    | zero => exact h0
    | succ j => exact h j (Nat.lt_of_succ_lt_succ hj)

theorem uniqueGo_spec :
    ∀ (lines : List Str) (seen : List Str),
      uniqueGo seen lines =
        ((List.range lines.length).filter (survivesSeen seen lines)).map
          (fun i => cleanText (lines.getD i [])) := by
  intro lines
  induction lines with
  | nil => intro seen; rfl
  | cons x xs ih =>
      intro seen
      rw [uniqueGo]
      simp only [List.length_cons, List.range_succ_eq_map,
        List.filter_cons]
      by_cases hx : cleanText x = [] ∨ lowerS (cleanText x) ∈ seen
      · rw [if_pos hx]
        have hp0 : survivesSeen seen (x :: xs) 0 = false := by
          simp only [survivesSeen, keyOf, List.getD_cons_zero,
            decide_eq_false_iff_not]
          rintro ⟨h1, h2, -⟩
          rcases hx with hx | hx
          · exact h1 hx
          · exact h2 hx
        rw [hp0]
        simp only [Bool.false_eq_true, if_neg (by simp : ¬False)]
        rw [List.filter_map, List.map_map, ih seen]
        have hfe : ((fun i => cleanText ((x :: xs).getD i [])) ∘
            Nat.succ) = fun i => cleanText (xs.getD i []) :=
          funext fun i => by simp
        rw [hfe]
        congr 1
        refine List.filter_congr ?_
        intro j hj
        simp only [survivesSeen, keyOf, Function.comp_apply,
          List.getD_cons_succ, decide_eq_decide]
        constructor
        · rintro ⟨h1, h2, h3⟩
          refine ⟨h1, h2, ?_⟩
          rw [forall_lt_succ_shift]
          constructor
          · simp only [List.getD_cons_zero]
            rcases hx with hx | hx
            · intro hcon
              exact lowerS_ne_nil h1 (by rw [← hcon, hx]; rfl)
            · intro hcon
              exact h2 (hcon ▸ hx)
          · intro j' hj'
            simp only [List.getD_cons_succ]
            exact h3 j' hj'
        · rintro ⟨h1, h2, h3⟩
          refine ⟨h1, h2, ?_⟩
          intro j' hj'
          exact h3 (j' + 1) (Nat.succ_lt_succ hj')
      · rw [if_neg hx]
        push_neg at hx
        have hp0 : survivesSeen seen (x :: xs) 0 = true := by
          simp only [survivesSeen, keyOf, List.getD_cons_zero,
            decide_eq_true_eq]
          exact ⟨hx.1, hx.2, fun j hj => absurd hj (Nat.not_lt_zero j)⟩
        rw [hp0]
        rw [if_pos rfl]
        simp only [List.map_cons, List.getD_cons_zero]
        congr 1
        rw [List.filter_map, List.map_map,
          ih (lowerS (cleanText x) :: seen)]
        have hfe : ((fun i => cleanText ((x :: xs).getD i [])) ∘
            Nat.succ) = fun i => cleanText (xs.getD i []) :=
          funext fun i => by simp
        rw [hfe]
        congr 1
        refine List.filter_congr ?_
        intro j hj
        simp only [survivesSeen, keyOf, Function.comp_apply,
          List.getD_cons_succ, decide_eq_decide, List.mem_cons]
        constructor
        · rintro ⟨h1, h2, h3⟩
          refine ⟨h1, fun h => h2 (Or.inr h), ?_⟩
          rw [forall_lt_succ_shift]
          refine ⟨?_, fun j' hj' => h3 j' hj'⟩
          simp only [List.getD_cons_zero]
          intro hcon
          exact h2 (Or.inl hcon.symm)
        · rintro ⟨h1, h2, h3⟩
          rw [forall_lt_succ_shift] at h3
          simp only [List.getD_cons_zero] at h3
          refine ⟨h1, ?_, fun j' hj' => h3.2 j' hj'⟩
          rintro (h | h)
          · exact h3.1 h.symm
          · exact h2 h

theorem uniqueGo_eq_self :
    ∀ (lines seen : List Str),
      (∀ x ∈ lines, cleanText x = x ∧ x ≠ []) →
      (∀ x ∈ lines, lowerS x ∉ seen) →
      List.Pairwise (fun a b => lowerS a ≠ lowerS b) lines →
      uniqueGo seen lines = lines := by
  intro lines
  induction lines with
  | nil => intro seen _ _ _; rfl
  | cons x xs ih =>
      intro seen hclean hseen hpair
      obtain ⟨hcx, hxne⟩ := hclean x (List.mem_cons_self _ _)
      have hneg : ¬(cleanText x = [] ∨ lowerS (cleanText x) ∈ seen) := by
        rw [hcx]
        rintro (h | h)
        · exact hxne h
        · exact hseen x (List.mem_cons_self _ _) h
      rw [uniqueGo, if_neg hneg]
      rw [hcx]
      congr 1
      refine ih _ (fun y hy => hclean y (List.mem_cons_of_mem _ hy))
        ?_ (List.pairwise_cons.mp hpair).2
      intro y hy
      simp only [List.mem_cons]
      rintro (h | h)
      · exact (List.pairwise_cons.mp hpair).1 y hy h.symm
      · exact hseen y (List.mem_cons_of_mem _ hy) h

theorem uniqueGo_out :
    ∀ (lines seen : List Str) (y : Str), y ∈ uniqueGo seen lines →
      (∃ x ∈ lines, y = cleanText x) ∧ y ≠ [] := by
  intro lines
  induction lines with
  | nil => intro seen y h; cases h
  | cons x xs ih =>
      intro seen y h
      rw [uniqueGo] at h
      split at h
      · obtain ⟨⟨x', hx', hy⟩, hne⟩ := ih _ _ h
        exact ⟨⟨x', List.mem_cons_of_mem _ hx', hy⟩, hne⟩
      · next hcond =>
          rcases List.mem_cons.mp h with h | h
          · push_neg at hcond
            exact ⟨⟨x, List.mem_cons_self _ _, h⟩, h ▸ hcond.1⟩
          · obtain ⟨⟨x', hx', hy⟩, hne⟩ := ih _ _ h
            exact ⟨⟨x', List.mem_cons_of_mem _ hx', hy⟩, hne⟩

theorem uniqueGo_keys :
    ∀ (lines seen : List Str),
      (∀ y ∈ uniqueGo seen lines, lowerS y ∉ seen) ∧
      List.Pairwise (fun a b => lowerS a ≠ lowerS b)
        (uniqueGo seen lines) := by
  intro lines
  induction lines with
  | nil =>
      intro seen
      exact ⟨fun y h => absurd h (List.not_mem_nil y), List.Pairwise.nil⟩
  | cons x xs ih =>
      intro seen
      rw [uniqueGo]
      split
      · exact ih seen
      · next hcond =>
          push_neg at hcond
          constructor
          · intro y hy
            rcases List.mem_cons.mp hy with h | h
            · rw [h]
              exact hcond.2
            · have := (ih (keyOf x :: seen)).1 y h
              intro hcon
              exact this (List.mem_cons_of_mem _ hcon)
          · refine List.pairwise_cons.mpr ⟨?_, (ih (keyOf x :: seen)).2⟩
            intro y hy
            have := (ih (keyOf x :: seen)).1 y hy
            intro hcon
            exact this (by rw [← hcon]; exact List.mem_cons_self _ _)

/-! ## Lemmas about the code classifiers and `str.replace` -/

theorem scanGo_semi_split :
    ∀ (l : Str) (prev : Option Char),
      scanGo (fun prev l => commonAt prev l || brSemiEnd l) prev l =
        (scanGo commonAt prev l ||
          scanGo (fun _ l => brSemiEnd l) prev l) := by
  intro l
  induction l with
  | nil => intro prev; rfl
  | cons c rest ih =>
      intro prev
      rw [scanGo, scanGo, scanGo, ih]
      cases hc : commonAt prev (c :: rest) <;>
        cases hs : brSemiEnd (c :: rest) <;>
          simp [Bool.or_assoc, Bool.or_comm, Bool.or_left_comm]

theorem srGo_not_occurs (w r : Str) :
    ∀ l, occurs w l = false → srGo w r 0 l = l := by
  intro l
  induction l with
  | nil => intro _; rfl
  | cons c rest ih =>
      intro h
      rw [occurs] at h
      have h1 := (Bool.or_eq_false_iff.mp h).1
      have h2 := (Bool.or_eq_false_iff.mp h).2
      rw [srGo, if_neg]
      · rw [ih h2]
      · simp [h1]

theorem foldl_strReplace_id (t : List (Str × Str)) (x : Str)
    (hocc : ∀ p ∈ t, occurs p.1 x = false) :
    t.foldl (fun out p => strReplace p.1 p.2 out) x = x := by
  induction t with
  | nil => rfl
  | cons p ps ih =>
      rw [List.foldl_cons]
      have hx : strReplace p.1 p.2 x = x :=
        srGo_not_occurs _ _ _ (hocc p (List.mem_cons_self _ _))
      rw [hx]
      exact ih fun q hq => hocc q (List.mem_cons_of_mem _ hq)

/-! ## Lemmas about the topic windower -/

theorem pytrunc_mono {a b : ℚ} (h : a ≤ b) : pytrunc a ≤ pytrunc b := by
  unfold pytrunc
  by_cases ha : 0 ≤ a <;> by_cases hb : 0 ≤ b <;> simp [ha, hb]
  · exact Int.floor_le_floor h
  · exact absurd (le_trans ha h) hb
  · calc ⌈a⌉ ≤ (0 : ℤ) :=
        Int.ceil_le.mpr (by exact_mod_cast le_of_lt (not_le.mp ha))
      _ ≤ ⌊b⌋ := Int.le_floor.mpr (by exact_mod_cast hb)
  · exact Int.ceil_le_ceil h

/-- The loop invariant of `_topic_windows`: the emitted windows are at most
`maxTopics`, their starts are strictly increasing (all below the cursor),
and every member of a window has integer-truncated start inside the
window. -/
theorem windowsGo_invariant (entries : List TranscriptEntry)
    (maxTopics windowSeconds : ℕ) (last : ℤ) (hws : 0 < windowSeconds) :
    ∀ fuel cursor grouped,
      grouped.length ≤ maxTopics →
      (∀ w ∈ grouped, w.1 < cursor) →
      List.Pairwise (· < ·) (grouped.map (·.1)) →
      (∀ w ∈ grouped, ∀ x ∈ w.2.2,
        w.1 ≤ pytrunc x.start ∧ pytrunc x.start < w.2.1) →
      (windowsGo entries maxTopics windowSeconds last fuel cursor
          grouped).length ≤ maxTopics ∧
      List.Pairwise (· < ·) ((windowsGo entries maxTopics windowSeconds last
          fuel cursor grouped).map (·.1)) ∧
      (∀ w ∈ windowsGo entries maxTopics windowSeconds last fuel cursor
          grouped, ∀ x ∈ w.2.2,
        w.1 ≤ pytrunc x.start ∧ pytrunc x.start < w.2.1) := by
  intro fuel
  induction fuel with
  | zero => intro cursor grouped hlen _ hpair hmem; exact ⟨hlen, hpair, hmem⟩
  | succ fuel ih =>
      intro cursor grouped hlen hlt hpair hmem
      rw [windowsGo]
      split
      · next hcond =>
          dsimp only
          set chunk := entries.filter (fun x =>
            decide (cursor ≤ pytrunc x.start ∧
              pytrunc x.start < cursor + (windowSeconds : ℤ))) with hchunk
          have hws' : (0 : ℤ) < (windowSeconds : ℤ) := by exact_mod_cast hws
          by_cases hch : chunk = []
          · rw [if_pos hch]
            refine ih _ grouped hlen ?_ hpair hmem
            intro w hw
            exact lt_trans (hlt w hw) (by linarith)
          · rw [if_neg hch]
            refine ih _ _ ?_ ?_ ?_ ?_
            · simpa using hcond.2
            · intro w hw
              rcases List.mem_append.mp hw with hw | hw
              · exact lt_trans (hlt w hw) (by linarith)
              · simp only [List.mem_singleton] at hw
                subst hw
                simpa using hws'
            · rw [List.map_append]
              rw [List.pairwise_append]
              refine ⟨hpair, List.pairwise_singleton _ _, ?_⟩
              intro a ha b hb
              simp only [List.map_cons, List.map_nil, List.mem_singleton]
                at hb
              subst hb
              simp only [List.mem_map] at ha
              obtain ⟨w, hw, rfl⟩ := ha
              exact hlt w hw
            · intro w hw x hx
              rcases List.mem_append.mp hw with hw | hw
              · exact hmem w hw x hx
              · simp only [List.mem_singleton] at hw
                subst hw
                simp only [hchunk, List.mem_filter] at hx
                simpa using of_decide_eq_true hx.2
      · exact ⟨hlen, hpair, hmem⟩

theorem windowsGo_ne_nil (entries : List TranscriptEntry)
    (maxTopics windowSeconds : ℕ) (last : ℤ) :
    ∀ fuel cursor grouped, grouped ≠ [] →
      windowsGo entries maxTopics windowSeconds last fuel cursor grouped ≠
        [] := by
  intro fuel
  induction fuel with
  | zero => intro _ _ h; simpa [windowsGo] using h
  | succ fuel ih =>
      intro cursor grouped h
      rw [windowsGo]
      split
      · dsimp only
        split
        · exact ih _ _ h
        · exact ih _ _ (by simp)
      · exact h

/-! # Claim theorems -/

/-- C1: at the decision point of `_collect_raw_data`, if the deduplicated
transcript-entry list and the deduplicated OCR-entry list are both empty the
run fails with the fatal no-usable-signal `ValueError` (whose human-readable
message carries the tool guidance), and if at least one of the two lists is
non-empty the run does not raise that error and returns the raw pipeline
output. -/
theorem collect_raw_data_no_usable_signal
    (fetched : Except Str (List TranscriptEntry)) (ocr : List OcrEntry) :
    (fetchedEntries fetched = [] ∧ ocr = [] →
      ∃ msg, collectRawData fetched ocr = Except.error msg ∧
        occurs noSignalGuidance msg = true) ∧
    (fetchedEntries fetched ≠ [] ∨ ocr ≠ [] →
      ∃ out, collectRawData fetched ocr = Except.ok out) := by
  constructor
  · intro h
    cases fetched with
    | ok entries =>
        exact ⟨defaultTranscriptDetail ++ str " " ++ noSignalGuidance,
          by simp only [collectRawData, if_pos h], occurs_append_self _ _⟩
    | error m =>
        exact ⟨m ++ str " " ++ noSignalGuidance,
          by simp only [collectRawData, if_pos h], occurs_append_self _ _⟩
  · intro h
    have hcond : ¬(fetchedEntries fetched = [] ∧ ocr = []) := by tauto
    exact ⟨⟨fetchedEntries fetched, ocr,
      extractCodeCandidates (fetchedEntries fetched) ocr⟩,
      by simp only [collectRawData, if_neg hcond]⟩

/-- Witness for C1: with a successfully fetched but empty transcript and no
OCR entries the run raises the no-usable-signal error, and with one
transcript entry it succeeds. -/
theorem collect_raw_data_no_usable_signal_witness :
    (∃ msg, collectRawData (Except.ok []) [] = Except.error msg ∧
      occurs noSignalGuidance msg = true) ∧
    (∃ out, collectRawData (Except.ok [entryW]) [] = Except.ok out) :=
  ⟨(collect_raw_data_no_usable_signal (Except.ok []) []).1 (by decide),
   (collect_raw_data_no_usable_signal (Except.ok [entryW]) []).2
     (by decide)⟩

/-- C2: for every non-empty transcript sequence with non-decreasing start
times and non-negative durations, `_topic_windows` with `max_topics = 5` and
`window_seconds = 90` returns windows with strictly increasing starts, each
member's integer-truncated start inside `[start, end)`, and at most 5
windows.  Under these hypotheses the degenerate fallback branch is never
taken (the first loop iteration always emits a window), so the properties
hold for the returned list in all cases, the fallback included. -/
theorem topic_windows_ordered_bounded (entries : List TranscriptEntry)
    (hne : entries ≠ [])
    (hsort : entries.Pairwise fun a b => a.start ≤ b.start)
    (hdur : ∀ x ∈ entries, 0 ≤ x.duration) :
    List.Pairwise (· < ·) ((topicWindows entries 5 90).map (·.1)) ∧
    (∀ w ∈ topicWindows entries 5 90, ∀ x ∈ w.2.2,
      w.1 ≤ pytrunc x.start ∧ pytrunc x.start < w.2.1) ∧
    (topicWindows entries 5 90).length ≤ 5 := by
  obtain ⟨e0, rest, rfl⟩ := List.exists_cons_of_ne_nil hne
  have hmemLast :
      (e0 :: rest).getLast (List.cons_ne_nil e0 rest) ∈ e0 :: rest :=
    List.getLast_mem _
  have h0le : e0.start ≤
      ((e0 :: rest).getLast (List.cons_ne_nil e0 rest)).start +
        ((e0 :: rest).getLast (List.cons_ne_nil e0 rest)).duration := by
    have hd := hdur _ hmemLast
    rcases List.mem_cons.mp hmemLast with h | h
    · rw [h] at hd ⊢; linarith
    · have := List.rel_of_pairwise_cons hsort h
      linarith
  have hcl : pytrunc e0.start ≤
      pytrunc (((e0 :: rest).getLast (List.cons_ne_nil e0 rest)).start +
        ((e0 :: rest).getLast (List.cons_ne_nil e0 rest)).duration) :=
    pytrunc_mono h0le
  have hchunkne : (e0 :: rest).filter (fun x =>
      decide (pytrunc e0.start ≤ pytrunc x.start ∧
        pytrunc x.start < pytrunc e0.start + ((90 : ℕ) : ℤ))) ≠ [] := by
    have hlt : pytrunc e0.start < pytrunc e0.start + ((90 : ℕ) : ℤ) := by
      have : (0 : ℤ) < ((90 : ℕ) : ℤ) := by norm_num
      linarith
    have hmem : e0 ∈ (e0 :: rest).filter (fun x =>
        decide (pytrunc e0.start ≤ pytrunc x.start ∧
          pytrunc x.start < pytrunc e0.start + ((90 : ℕ) : ℤ))) :=
      List.mem_filter.mpr
        ⟨List.mem_cons_self e0 rest, decide_eq_true ⟨le_refl _, hlt⟩⟩
    exact List.ne_nil_of_mem hmem
  have hgo_ne : windowsGo (e0 :: rest) 5 90
      (pytrunc (((e0 :: rest).getLast (List.cons_ne_nil e0 rest)).start +
        ((e0 :: rest).getLast (List.cons_ne_nil e0 rest)).duration))
      ((pytrunc (((e0 :: rest).getLast (List.cons_ne_nil e0 rest)).start +
        ((e0 :: rest).getLast (List.cons_ne_nil e0 rest)).duration) + 1 -
        pytrunc e0.start).toNat)
      (pytrunc e0.start) [] ≠ [] := by
    have hf : (pytrunc (((e0 :: rest).getLast
          (List.cons_ne_nil e0 rest)).start +
        ((e0 :: rest).getLast (List.cons_ne_nil e0 rest)).duration) + 1 -
        pytrunc e0.start).toNat =
        ((pytrunc (((e0 :: rest).getLast
          (List.cons_ne_nil e0 rest)).start +
        ((e0 :: rest).getLast (List.cons_ne_nil e0 rest)).duration) + 1 -
        pytrunc e0.start).toNat - 1) + 1 := by
      omega
    rw [hf, windowsGo]
    rw [if_pos ⟨hcl, by norm_num⟩]
    dsimp only
    rw [if_neg hchunkne]
    exact windowsGo_ne_nil _ _ _ _ _ _ _ (by simp)
  have hmain := windowsGo_invariant (e0 :: rest) 5 90
    (pytrunc (((e0 :: rest).getLast (List.cons_ne_nil e0 rest)).start +
      ((e0 :: rest).getLast (List.cons_ne_nil e0 rest)).duration))
    (by norm_num)
    ((pytrunc (((e0 :: rest).getLast (List.cons_ne_nil e0 rest)).start +
      ((e0 :: rest).getLast (List.cons_ne_nil e0 rest)).duration) + 1 -
      pytrunc e0.start).toNat)
    (pytrunc e0.start) [] (by simp) (by simp) (by simp) (by simp)
  simp only [topicWindows]
  rw [if_neg hgo_ne]
  exact ⟨hmain.2.1, hmain.2.2, hmain.1⟩

/-- Witness for C2 at the scenario-A entries, which are time-ordered with
non-negative durations. -/
theorem topic_windows_ordered_bounded_witness :
    ([entryA1, entryA2] ≠ ([] : List TranscriptEntry)) ∧
    (List.Pairwise (· < ·)
      ((topicWindows [entryA1, entryA2] 5 90).map (·.1)) ∧
    (∀ w ∈ topicWindows [entryA1, entryA2] 5 90, ∀ x ∈ w.2.2,
      w.1 ≤ pytrunc x.start ∧ pytrunc x.start < w.2.1) ∧
    (topicWindows [entryA1, entryA2] 5 90).length ≤ 5) :=
  ⟨by decide,
   topic_windows_ordered_bounded [entryA1, entryA2] (by decide)
     (by
       refine List.pairwise_cons.mpr ⟨?_, List.pairwise_singleton _ _⟩
       intro b hb
       simp only [List.mem_singleton] at hb
       subst hb
       norm_num [entryA1, entryA2])
     (by
       intro x hx
       rcases List.mem_cons.mp hx with h | h
       · rw [h]; norm_num [entryA1]
       · simp only [List.mem_singleton] at h
         rw [h]; norm_num [entryA2])⟩

/-- C3: on the scenario-A transcript (two entries, no OCR, plain language
and style) the structuring transform returns exactly one `TopicNote`; its
`formulas_or_diagrams` contains a line with both "voltage" and "equals", its
`diagram` is `"Flow: Define -> Calculate"`, and its title is the
stop-word/frequency title `"Topic 1: Define & Voltage"`, carrying the
`"Topic 1: "` prefix. -/
theorem structure_notes_scenario_a :
    (structureNotes rawA Language.english Style.simple).length = 1 ∧
    (structureNotes rawA Language.english Style.simple).all
      (fun note => note.formulas_or_diagrams.any
        (fun line => occurs (str "voltage") line &&
          occurs (str "equals") line)) = true ∧
    (structureNotes rawA Language.english Style.simple).map
      TopicNote.diagram = [str "Flow: Define -> Calculate"] ∧
    (structureNotes rawA Language.english Style.simple).map
      TopicNote.topic_name = [str "Topic 1: Define & Voltage"] ∧
    (structureNotes rawA Language.english Style.simple).all
      (fun note => hasPre (str "Topic 1: ") note.topic_name) = true := by
  rw [notesA]
  decide

/-- C6: the register transformation `_to_hinglish` is not idempotent: on
`"use"` a second application re-matches the `use` introduced by the
`use → use karo` rule. -/
theorem to_hinglish_not_idempotent :
    ∃ s : Str, toHinglish (toHinglish s) ≠ toHinglish s :=
  ⟨str "use", by decide⟩

/-- C7: with exam style and plain language, the bullet produced for the
candidate line `"so current flows"` is exactly `"Exam focus: So current
flows"`: simplification capitalizes the first character and the exam prefix
is applied by `_format_text`. -/
theorem exam_bullet_scenario_d :
    formatText (simplifySentence (str "so current flows")) Language.english
      Style.exam = str "Exam focus: So current flows" := by
  decide

/-- Counterexample for C8: `_simplify_sentence` replaces table keys as plain
substrings (`str.replace`), so `"whence"` — which merely contains the key
`"hence"` — becomes `"Wso"`, not the claimed untouched `"Whence"`. -/
theorem simplify_sentence_substring_cex :
    simplifySentence (str "whence") = str "Wso" ∧
    simplifySentence (str "whence") ≠ str "Whence" := by
  decide

/-- Counterexample for C9: `_clean_text` is not idempotent.  On
`"[a\nb]"` the bracket pair spans a newline, so the first pass only joins
the lines, producing `"[a b]"`, which a second pass deletes entirely. -/
theorem clean_text_not_idempotent_cex :
    cleanText (str "[a\nb]") = str "[a b]" ∧
    cleanText (cleanText (str "[a\nb]")) = [] ∧
    cleanText (cleanText (str "[a\nb]")) ≠ cleanText (str "[a\nb]") := by
  decide

/-- Counterexample for C4: the deduplicator is not idempotent, for the same
reason `_clean_text` is not: `["[a\nb]"]` deduplicates to `["[a b]"]`,
which deduplicates to `[]`. -/
theorem unique_lines_not_idempotent_cex :
    uniqueLines [str "[a\nb]"] = [str "[a b]"] ∧
    uniqueLines (uniqueLines [str "[a\nb]"]) = [] ∧
    uniqueLines (uniqueLines [str "[a\nb]"]) ≠ uniqueLines [str "[a\nb]"] := by
  decide

/-- Counterexample for C5: the per-window classifier `_looks_code` and the
pool-construction pattern of `_extract_code_candidates` are not the same
classifier: `"import os"` matches only the pool pattern (its
`^\s*import ` branch) and `"x;"` matches only `_looks_code` (its `;\s*$`
branch). -/
theorem looks_code_pool_differ_cex :
    looksCode (str "import os") = false ∧
    codeLikePool (str "import os") = true ∧
    looksCode (str "x;") = true ∧
    codeLikePool (str "x;") = false := by
  decide

/-- C5 (amended): the per-window classifier `_looks_code` and the pool
pattern of `_extract_code_candidates` are the same disjunction of branches
except that the pool pattern alone carries `^\s*import ` and `_looks_code`
alone carries `;\s*$`: augmenting each classifier with the other's extra
branch yields exactly the same classifier. -/
theorem looks_code_pool_relation (s : Str) :
    (codeLikePool s || scanSearch (fun _ l => brSemiEnd l) (lowerS s)) =
    (looksCode s || brImportSp (lowerS s)) := by
  unfold codeLikePool looksCode scanSearch
  dsimp only
  rw [scanGo_semi_split]
  cases brHashInclude (lowerS s) <;> cases brImportSp (lowerS s) <;>
    cases brBraceLine (lowerS s) <;>
      cases scanGo commonAt none (lowerS s) <;>
        cases scanGo (fun _ l => brSemiEnd l) none (lowerS s) <;> rfl

/-- C8 (amended): `_simplify_sentence` applies its table by plain substring
replacement, so whenever no table key occurs as a substring of the
lower-cased cleaned input — in particular for any word that merely contains
a key, the replacement does fire, see the counterexample — the result is
exactly the cleaned, lower-cased input with its first character
capitalized. -/
theorem simplify_sentence_no_key_identity (s : Str)
    (h : ∀ p ∈ simplifyTable, occurs p.1 (lowerS (cleanText s)) = false) :
    simplifySentence s = capFirst (lowerS (cleanText s)) := by
  unfold simplifySentence
  rw [foldl_strReplace_id _ _ h]

/-- Witness for the amended C8: a sentence containing none of the
replacement keys is only cleaned, lower-cased and first-capitalized. -/
theorem simplify_sentence_no_key_identity_witness :
    (∀ p ∈ simplifyTable,
      occurs p.1 (lowerS (cleanText (str "The Simple Voltage Law  stands"))) =
        false) ∧
    simplifySentence (str "The Simple Voltage Law  stands") =
      capFirst (lowerS (cleanText (str "The Simple Voltage Law  stands"))) :=
  ⟨by decide,
   simplify_sentence_no_key_identity (str "The Simple Voltage Law  stands")
     (by decide)⟩

/-- C10: every `TopicNote` produced by `_structure_notes` has a non-empty
`screen_content`; when a window has no OCR lines in its time range,
`screen_content` is exactly the fixed fallback sentence, passed through the
style formatter twice (once at construction, once in the final mapping), so
under exam style with plain language it carries the `"Exam focus: "` prefix
twice. -/
theorem screen_content_nonempty_fallback (raw : RawPipelineOutput)
    (language : Language) (style : Style) :
    (∀ note ∈ structureNotes raw language style,
      note.screen_content ≠ []) ∧
    (∀ index w, windowOcrLines raw w = [] →
      (buildNote raw language style index w).screen_content =
        [formatText (formatText fallbackSentence language style) language
          style]) ∧
    (∀ index w, windowOcrLines raw w = [] →
      (buildNote raw Language.english Style.exam index w).screen_content =
        [str "Exam focus: Exam focus: " ++ fallbackSentence]) := by
  refine ⟨?_, ?_, ?_⟩
  · intro note hnote
    simp only [structureNotes, List.mem_map] at hnote
    obtain ⟨p, -, rfl⟩ := hnote
    simp only [buildNote]
    split
    · simp
    · next hne =>
        simp only [ne_eq, List.map_eq_nil_iff]
        exact hne
  · intro index w hocr
    simp only [buildNote, hocr]
    simp [uniqueLines, uniqueGo]
  · intro index w hocr
    simp only [buildNote, hocr]
    simp [uniqueLines, uniqueGo]
    rfl

/-- Witness for C10: on a one-entry transcript with no OCR at all, under
exam style, the produced note's screen content is non-empty and is exactly
the doubly exam-prefixed fallback sentence. -/
theorem screen_content_nonempty_fallback_witness :
    (buildNote rawW Language.english Style.exam 1 (0, 90, [entryW])).screen_content ≠ [] ∧
    (buildNote rawW Language.english Style.exam 1 (0, 90, [entryW])).screen_content =
      [str "Exam focus: Exam focus: " ++ fallbackSentence] :=
  ⟨(screen_content_nonempty_fallback rawW Language.english Style.exam).1
      (buildNote rawW Language.english Style.exam 1 (0, 90, [entryW]))
      (by rw [notesW]; exact List.mem_singleton.mpr rfl),
   (screen_content_nonempty_fallback rawW Language.english Style.exam).2.2 1
      (0, 90, [entryW]) (by decide)⟩

/-- C9 (amended): `_clean_text` is idempotent on inputs containing no
newline character.  (On inputs where a `[...]` pair spans a newline it is
not; see the counterexample.) -/
theorem clean_text_idempotent_newline_free (s : Str) (h : '\n' ∉ s) :
    cleanText (cleanText s) = cleanText s :=
  cleanText_cleanText h

/-- C4 (amended): `_unique_lines` returns exactly the cleaned texts at the
first-occurrence positions of each non-empty case-insensitive key, in input
order; and it is idempotent on sequences of newline-free strings.  (Full
idempotence fails because `_clean_text` is not idempotent across newlines;
see the counterexample.) -/
theorem unique_lines_first_occurrence_order (l : List Str) :
    uniqueLines l = firstOccurrenceList l ∧
    ((∀ s ∈ l, '\n' ∉ s) →
      uniqueLines (uniqueLines l) = uniqueLines l) := by
  constructor
  · exact uniqueGo_spec l []
  · intro hnl
    apply uniqueGo_eq_self
    · intro y hy
      obtain ⟨⟨x, hx, rfl⟩, hne⟩ := uniqueGo_out l [] y hy
      exact ⟨cleanText_cleanText (hnl x hx), hne⟩
    · intro y _
      exact List.not_mem_nil _
    · exact (uniqueGo_keys l []).2

/-- Witness for the amended C4 on a concrete newline-free list with a
case-insensitive duplicate. -/
theorem unique_lines_first_occurrence_order_witness :
    (uniqueLines [str "Hello", str "hello  ", str "World"] =
      firstOccurrenceList [str "Hello", str "hello  ", str "World"]) ∧
    (∀ s ∈ [str "Hello", str "hello  ", str "World"], '\n' ∉ s) ∧
    uniqueLines (uniqueLines [str "Hello", str "hello  ", str "World"]) =
      uniqueLines [str "Hello", str "hello  ", str "World"] :=
  ⟨(unique_lines_first_occurrence_order
      [str "Hello", str "hello  ", str "World"]).1,
   by decide,
   (unique_lines_first_occurrence_order
      [str "Hello", str "hello  ", str "World"]).2 (by decide)⟩

/-- Witness for the amended C9 on a concrete newline-free string with
bracketed annotations, repeated blanks and padding. -/
theorem clean_text_idempotent_newline_free_witness :
    ('\n' ∉ str "  hello [cue 1]   world  ") ∧
    cleanText (cleanText (str "  hello [cue 1]   world  ")) =
      cleanText (str "  hello [cue 1]   world  ") :=
  ⟨by decide,
   clean_text_idempotent_newline_free (str "  hello [cue 1]   world  ")
     (by decide)⟩

end Pipeline
